import Mathlib

/-!
Verification development for the gtsam hybrid-inference fragment:
shallow embeddings of the triangulation routines (`gtsam/geometry/triangulation.h`),
of the HybridBayesNet query operations exercised by `testHybridBayesNet.cpp`,
and of the spec-level contracts of the incremental-update (ISAM) and pruning steps.
Machine reals are modelled by exact rationals; external collaborators
(DLT/SVD, nonlinear refinement, linear algebra) are abstracted as parameters,
exactly as the code treats them as black boxes.
-/

namespace Tri

/-- A 3D point, as produced by triangulation (coordinates abstracted as rationals). -/
structure Point3 where
  x : ℚ
  y : ℚ
  z : ℚ
deriving DecidableEq

/-- A 2D image measurement. -/
structure Point2 where
  u : ℚ
  v : ℚ
deriving DecidableEq

/-- Exceptions of `triangulation.h`: `TriangulationUnderconstrainedException`
(DLT rank below 3 or fewer than two poses) and `TriangulationCheiralityException`
(landmark behind one or more cameras). -/
inductive TriangulationException where
  | underconstrained
  | cheirality
deriving DecidableEq

/-- Mirror of `class TriangulationResult`: an optional `Point3` with a status
tag among VALID, DEGENERATE, BEHIND_CAMERA; a valid result always carries the point. -/
inductive TriangulationResult where
  | valid (p : Point3)
  | degenerate
  | behindCamera
deriving DecidableEq

/-- Mirror of `struct TriangulationParameters` (rankTolerance, enableEPI,
landmarkDistanceThreshold, dynamicOutlierRejectionThreshold). -/
structure TriangulationParameters where
  rankTolerance : ℚ
  enableEPI : Bool
  landmarkDistanceThreshold : ℚ
  dynamicOutlierRejectionThreshold : ℚ

/-- A camera, viewed through the operations `triangulatePoint3`/`triangulateSafe`
actually perform on it: distance from the camera translation to a point
(`pose.translation().distance(point)`), depth of a point in the local frame
(`pose.transform_to(point).z()`), and reprojection-error norm
(`(camera.project(point) - zi).norm()`). The geometric formulas live in the
geometry collaborator and are abstracted as function fields. -/
structure Camera where
  distToPoint : Point3 → ℚ
  localZ : Point3 → ℚ
  reprojErrNorm : Point3 → Point2 → ℚ

/-- The external computations `triangulatePoint3` delegates to:
`triangulateDLT` (declared in `triangulation.h`, documented to throw
`TriangulationUnderconstrainedException` exactly when the SVD rank is below 3
at the given tolerance — modelled as `none`), and the nonlinear refinement
`triangulateNonlinear` used when `optimize` is requested. -/
structure TriangulationOracle where
  dlt : ℚ → Option Point3
  refine : Point3 → Point3

/-- Shallow embedding of `triangulatePoint3` (camera overload, lines 243-278 of
`triangulation.h`): throw underconstrained when fewer than two cameras; run the
DLT (underconstrained when rank-deficient); optionally refine; when the build
enables `GTSAM_THROW_CHEIRALITY_EXCEPTION` (parameter `cheir`), throw cheirality
if the point has non-positive depth in any camera. Exceptions are modelled by
`Except`. -/
def triangulatePoint3 (cheir : Bool) (cameras : List Camera) (rankTol : ℚ)
    (optimize : Bool) (oracle : TriangulationOracle) :
    Except TriangulationException Point3 :=
  if cameras.length < 2 then .error .underconstrained
  else
    match oracle.dlt rankTol with
    | none => .error .underconstrained
    | some p0 =>
      let point := if optimize then oracle.refine p0 else p0
      if cheir && cameras.any (fun c => decide (c.localZ point ≤ 0)) then
        .error .cheirality
      else .ok point

/-- The per-camera checking loop inside `triangulateSafe` (lines 394-416):
early-return Degenerate when the landmark-distance threshold is enabled and
exceeded, early-return BehindCamera on non-positive depth (under the cheirality
build flag), otherwise accumulate the reprojection error when dynamic outlier
rejection is enabled. -/
def scanCameras (cheir : Bool) (params : TriangulationParameters) (point : Point3) :
    List (Camera × Point2) → Except TriangulationResult ℚ
  | [] => .ok 0
  | (c, z) :: rest =>
    if params.landmarkDistanceThreshold > 0 ∧
        c.distToPoint point > params.landmarkDistanceThreshold then
      .error .degenerate
    else if cheir ∧ c.localZ point ≤ 0 then
      .error .behindCamera
    else
      match scanCameras cheir params point rest with
      | .error r => .error r
      | .ok e =>
        .ok (e + if params.dynamicOutlierRejectionThreshold > 0 then
                   c.reprojErrNorm point z
                 else 0)

/-- Shallow embedding of `triangulateSafe` (lines 377-433): fewer than two
cameras is Degenerate outright (the oracle is never consulted); otherwise
triangulate, run the checks, flag Degenerate when the average reprojection error
exceeds the dynamic-outlier threshold; the catch blocks turn an
underconstrained exception into Degenerate and a cheirality exception into
BehindCamera. -/
def triangulateSafe (cheir : Bool) (cameras : List Camera) (measured : List Point2)
    (params : TriangulationParameters) (oracle : TriangulationOracle) :
    TriangulationResult :=
  let m := cameras.length
  if m < 2 then .degenerate
  else
    match triangulatePoint3 cheir cameras params.rankTolerance params.enableEPI oracle with
    | .error .underconstrained => .degenerate
    | .error .cheirality => .behindCamera
    | .ok point =>
      match scanCameras cheir params point (cameras.zip measured) with
      | .error r => r
      | .ok totalReprojError =>
        if params.dynamicOutlierRejectionThreshold > 0 ∧
            totalReprojError / (m : ℚ) > params.dynamicOutlierRejectionThreshold then
          .degenerate
        else .valid point

end Tri

namespace HBN

/-- Variable identifier (gtsam `Key`). -/
abbrev Key := Nat

/-- A (possibly partial) discrete assignment, gtsam `DiscreteValues`: key → chosen index. -/
abbrev DiscreteValues := List (Key × Nat)

/-- A vector value attached to one continuous variable. -/
abbrev Vec := List ℚ

/-- A continuous solution, gtsam `VectorValues`: key → vector. -/
abbrev VectorValues := List (Key × Vec)

/-- A Gaussian conditional on one frontal continuous variable given its parents,
viewed through the operation back-substitution performs on it: given the values
of the later-eliminated variables, produce the frontal solution. The dense
linear algebra behind `solve` is the trusted black-box collaborator. -/
structure GaussianConditional where
  frontal : Key
  solve : VectorValues → Vec

/-- A discrete conditional probability table (payload irrelevant to `choose`). -/
structure DiscreteConditional where
  key : Key
  table : List ℚ

/-- A Gaussian-mixture conditional: a Gaussian conditional selected by the
values of its discrete parents. -/
structure GaussianMixture where
  discreteParents : List Key
  branch : List Nat → GaussianConditional

/-- A conditional of a hybrid Bayes net: discrete, plain Gaussian, or mixture. -/
inductive HybridConditional where
  | discrete (d : DiscreteConditional)
  | gaussian (g : GaussianConditional)
  | mixture (m : GaussianMixture)

/-- Ordered sequence of conditionals produced by sequential elimination. -/
abbrev HybridBayesNet := List HybridConditional

/-- A pure Gaussian Bayes net. -/
abbrev GaussianBayesNet := List GaussianConditional

/-- Error taxonomy entry for `choose`/`optimize(assignment)`. -/
inductive HybridError where
  | missingAssignment (k : Key)
deriving DecidableEq

/-- Look up the values of a list of discrete parent keys in an assignment,
failing with a missing-assignment error on the first unassigned key. -/
def assignParents (a : DiscreteValues) : List Key → Except HybridError (List Nat)
  | [] => .ok []
  | k :: ks =>
    match a.lookup k with
    | none => .error (.missingAssignment k)
    | some v =>
      match assignParents a ks with
      | .error e => .error e
      | .ok vs => .ok (v :: vs)

/-- Decidable test that an assignment covers the discrete parents of every
mixture conditional of the net. -/
def allAssigned (bn : HybridBayesNet) (a : DiscreteValues) : Bool :=
  bn.all fun c =>
    match c with
    | .mixture m => (assignParents a m.discreteParents).toOption.isSome
    | _ => true

/-- Modelled from the spec: `HybridBayesNet::choose(discreteAssignment)`
(the member function itself is outside the explored sources; only its unit test
is). For every conditional: a GaussianMixture contributes the Gaussian branch
selected by the assignment restricted to its discrete parents, a plain
GaussianConditional passes through, a discrete conditional is dropped; a
discrete key left unassigned raises a missing-assignment error and no partial
result is produced. -/
def choose (bn : HybridBayesNet) (a : DiscreteValues) :
    Except HybridError GaussianBayesNet :=
  match bn with
  | [] => .ok []
  | .discrete _ :: rest => choose rest a
  | .gaussian g :: rest =>
    match choose rest a with
    | .error e => .error e
    | .ok tail => .ok (g :: tail)
  | .mixture m :: rest =>
    match assignParents a m.discreteParents with
    | .error e => .error e
    | .ok vals =>
      match choose rest a with
      | .error e => .error e
      | .ok tail => .ok (m.branch vals :: tail)

/-- The per-conditional action of `choose`, stated the way the spec words it:
mixture → selected branch, Gaussian → itself, discrete → dropped. -/
def chooseConditional (a : DiscreteValues) : HybridConditional → Option GaussianConditional
  | .discrete _ => none
  | .gaussian g => some g
  | .mixture m => ((assignParents a m.discreteParents).map m.branch).toOption

/-- Whether a hybrid conditional is a discrete conditional. -/
def HybridConditional.isDiscreteCond : HybridConditional → Bool
  | .discrete _ => true
  | _ => false

/-- Standard back-substitution on a Gaussian Bayes net: conditionals are solved
from the last-eliminated one backwards, each frontal solution prepended to the
partial `VectorValues` the earlier conditionals then read. -/
def backSubstitute : GaussianBayesNet → VectorValues
  | [] => []
  | g :: rest =>
    let vv := backSubstitute rest
    (g.frontal, g.solve vv) :: vv

/-- Modelled from the spec: `HybridBayesNet::optimize(discreteAssignment)`
(the member function is outside the explored sources) — back-substitution for a
caller-supplied fixed discrete assignment, written as a single pass that selects
each mixture branch and solves it in place. -/
def optimizeWith (bn : HybridBayesNet) (a : DiscreteValues) :
    Except HybridError VectorValues :=
  match bn with
  | [] => .ok []
  | .discrete _ :: rest => optimizeWith rest a
  | .gaussian g :: rest =>
    match optimizeWith rest a with
    | .error e => .error e
    | .ok vv => .ok ((g.frontal, g.solve vv) :: vv)
  | .mixture m :: rest =>
    match assignParents a m.discreteParents with
    | .error e => .error e
    | .ok vals =>
      match optimizeWith rest a with
      | .error e => .error e
      | .ok vv => .ok (((m.branch vals).frontal, (m.branch vals).solve vv) :: vv)

end HBN

namespace MAPModel

/-- Pick an element of maximal weight from a candidate list (first occurrence
wins ties), the discrete-probability back-substitution abstracted to its
outcome: the exact mode over the feasible discrete assignments. -/
def pickMax {δ : Type} (w : δ → ℚ) : List δ → Option δ
  | [] => none
  | d :: rest =>
    match pickMax w rest with
    | none => some d
    | some b => if w d < w b then some b else some d

/-- Modelled from the spec: the outcome of eliminating a hybrid factor graph
(the elimination engine is outside the explored sources). A result — Bayes net
from sequential elimination or Bayes tree from multifrontal elimination, under
any valid ordering — exposes the feasible discrete assignments, the weight the
accumulated normalization constants give each one, and the continuous solution
back-substitution produces per assignment. -/
structure EliminationResult (δ : Type) where
  candidates : List δ
  weight : δ → ℚ
  contSolve : δ → HBN.VectorValues

/-- Modelled from the spec: the density-preservation contract of elimination
(§ density preservation / exact-mode guarantee) relative to the unnormalized
graph density `p`: per discrete assignment, back-substitution maximizes the
continuous density, and the stored weight is that maximum. -/
def ValidElimination {δ : Type} (p : δ → HBN.VectorValues → ℚ)
    (E : EliminationResult δ) : Prop :=
  (∀ d x, p d x ≤ p d (E.contSolve d)) ∧
  (∀ d, E.weight d = p d (E.contSolve d))

/-- Modelled from the spec: `optimize()` — exact discrete MAP over the feasible
assignments followed by back-substitution at the mode. -/
def EliminationResult.optimize {δ : Type} (E : EliminationResult δ) :
    Option (δ × HBN.VectorValues) :=
  (pickMax E.weight E.candidates).map (fun d => (d, E.contSolve d))

end MAPModel

namespace ISAMModel

/-- A clique of a hybrid Bayes tree, remembered together with the
elimination-time factors it encodes (the factors its conditional is converted
back into when the clique is re-eliminated). -/
structure Clique (φ : Type) where
  keys : List HBN.Key
  factors : List φ

/-- A Bayes tree, flattened to its cliques (tree shape is irrelevant to the
factor content the update contract tracks). -/
abbrev Tree (φ : Type) := List (Clique φ)

/-- All elimination-time factors a tree encodes. -/
def allFactors {φ : Type} (t : Tree φ) : List φ :=
  (t.map Clique.factors).flatten

/-- Whether a clique touches any of the given keys. -/
def touches {φ : Type} (ks : List HBN.Key) (c : Clique φ) : Bool :=
  c.keys.any (fun k => ks.contains k)

/-- Modelled from the spec: `HybridGaussianISAM::update` (declared in
`HybridGaussianISAM.h`, body outside the explored sources): split the tree into
the affected cliques — those touching a key of the new factors — and the
orphans, convert the affected cliques back into their factors, re-eliminate
them together with the new factors, and re-attach the orphans unchanged. The
re-elimination engine is the parameter `elim`. -/
def update {φ : Type} (elim : List φ → Tree φ) (keysOf : φ → List HBN.Key)
    (t : Tree φ) (newFactors : List φ) : Tree φ :=
  let newKeys := (newFactors.map keysOf).flatten
  let affected := t.filter (touches newKeys)
  let orphans := t.filter (fun c => !touches newKeys c)
  elim (allFactors affected ++ newFactors) ++ orphans

/-- Sequential application of `update` over a list of factor batches, starting
from the empty tree. -/
def updateSeq {φ : Type} (elim : List φ → Tree φ) (keysOf : φ → List HBN.Key)
    (batches : List (List φ)) : Tree φ :=
  batches.foldl (update elim keysOf) []

/-- The unnormalized discrete density a factor list induces: the product of the
per-factor densities at a discrete assignment (continuous part already
max-marginalized per assignment). -/
def graphWeight {φ δ : Type} (fd : φ → δ → ℚ) (fs : List φ) (d : δ) : ℚ :=
  (fs.map (fun f => fd f d)).prod

/-- Modelled from the spec: `optimize()` on a Bayes tree, abstracted to the
exact discrete mode of the density of the factors the tree encodes, together
with the per-assignment continuous solve of those factors. -/
def treeOptimize {φ δ : Type} (fd : φ → δ → ℚ)
    (csolve : δ → HBN.VectorValues) (cands : List δ) (t : Tree φ) :
    Option (δ × HBN.VectorValues) :=
  (MAPModel.pickMax (graphWeight fd (allFactors t)) cands).map
    (fun d => (d, csolve d))

/-- One-shot batch elimination of a factor list into a single-clique tree
covering all its keys (what eliminating the union at once produces, at the
granularity the update contract is stated at). -/
def batchTree {φ : Type} (keysOf : φ → List HBN.Key) (fs : List φ) : Tree φ :=
  [⟨(fs.map keysOf).flatten, fs⟩]

end ISAMModel

namespace PruneModel

/-- A discrete leaf hypothesis of the joint decision structure: a discrete
assignment together with its relative likelihood weight (the normalization
constants accumulated during elimination). -/
abbrev Leaf (δ : Type) := δ × ℚ

/-- Insert a leaf into a list already sorted by non-increasing weight, keeping
it sorted (existing equal-weight leaves stay in front: a deterministic
tie-break, the spec leaves the rule open). -/
def leafInsert {δ : Type} (x : Leaf δ) : List (Leaf δ) → List (Leaf δ)
  | [] => [x]
  | y :: ys => if x.2 ≤ y.2 then y :: leafInsert x ys else x :: y :: ys

/-- Sort the leaves by non-increasing weight. -/
def sortLeaves {δ : Type} : List (Leaf δ) → List (Leaf δ)
  | [] => []
  | x :: xs => leafInsert x (sortLeaves xs)

/-- Modelled from the spec: `HybridGaussianISAM::prune` (declared in
`HybridGaussianISAM.h`, body outside the explored sources): rank the leaves of
the joint discrete decision structure by weight and retain only the top
`maxLeaves`, discarding the rest. -/
def prune {δ : Type} (leaves : List (Leaf δ)) (maxLeaves : Nat) : List (Leaf δ) :=
  (sortLeaves leaves).take maxLeaves

/-- The leaves a prune call discards. -/
def pruneDiscarded {δ : Type} (leaves : List (Leaf δ)) (maxLeaves : Nat) : List (Leaf δ) :=
  (sortLeaves leaves).drop maxLeaves

end PruneModel

namespace TestData

/-- Expected continuous solution documented in `TEST(HybridBayesNet, Optimize)`
(`testHybridBayesNet.cpp` lines 224-230): the delta `optimize()` returns for
X(1)..X(4) after sequential elimination of the `Switching(4)` graph with the
full hybrid ordering, asserted there with tolerance 1e-5. Indexed by the symbol
index k of X(k); each one-dimensional value is stored exactly, in units of
1e-6 (so -0.999904 is -999904, -0.99029 is -990290, -1.00971 is -1009710,
-1.0001 is -1000100). -/
def optimizeExpectedContinuous : List (Nat × Int) :=
  [(1, -999904), (2, -990290), (3, -1009710), (4, -1000100)]

/-- Expected discrete assignment documented in `TEST(HybridBayesNet, Optimize)`
(lines 218-221): M(1)=1, M(2)=0, M(3)=1, indexed by the symbol index of M(k). -/
def optimizeExpectedDiscrete : List (Nat × Nat) :=
  [(1, 1), (2, 0), (3, 1)]

/-- Decidable statement of the claimed tolerance: every documented continuous
value is offset by exactly -1 (that is, -1000000 in units of 1e-6) from its
linearization point within `tolMicro` units of 1e-6. -/
def allWithinOfMinusOne (tolMicro : Int) : Bool :=
  optimizeExpectedContinuous.all (fun kv =>
    decide (-1000000 - tolMicro ≤ kv.2 ∧ kv.2 ≤ -1000000 + tolMicro))

end TestData

namespace Ser

/-- A serialization token: the archive alphabet (integers and reals, the latter
modelled as exact rationals). -/
inductive Token where
  | nat (n : Nat)
  | rat (q : ℚ)
deriving DecidableEq

/-- First-order (data-only) Gaussian conditional: frontal key, parent keys, and
the dense payload (`R` rows and right-hand side) the archive stores. -/
structure SGaussianConditional where
  frontal : HBN.Key
  parents : List HBN.Key
  matrixRows : List (List ℚ)
  rhs : List ℚ
deriving DecidableEq

/-- First-order discrete conditional: key, cardinality, probability table. -/
structure SDiscreteConditional where
  key : HBN.Key
  cardinality : Nat
  table : List ℚ
deriving DecidableEq

/-- First-order Gaussian-mixture conditional: discrete parent keys with their
cardinalities, and the list of Gaussian branches. -/
structure SMixture where
  discreteParents : List (HBN.Key × Nat)
  branches : List SGaussianConditional
deriving DecidableEq

/-- First-order hybrid conditional, the unit the archive stores. -/
inductive SConditional where
  | discrete (d : SDiscreteConditional)
  | gaussian (g : SGaussianConditional)
  | mixture (m : SMixture)
deriving DecidableEq

/-- First-order hybrid Bayes net: ordered conditional list, with structural
(derived decidable) equality — the equality the serialization test compares
round-tripped objects with. -/
abbrev SHybridBayesNet := List SConditional

/-- Encode a rational list, length-prefixed. -/
def encRatList (l : List ℚ) : List Token :=
  Token.nat l.length :: l.map Token.rat

/-- Encode a natural-number list, length-prefixed. -/
def encNatList (l : List Nat) : List Token :=
  Token.nat l.length :: l.map Token.nat

/-- Encode a list of key/cardinality pairs, length-prefixed. -/
def encPairList (l : List (Nat × Nat)) : List Token :=
  Token.nat l.length :: (l.map (fun p => [Token.nat p.1, Token.nat p.2])).flatten

/-- Encode a matrix as a length-prefixed list of encoded rows. -/
def encMat (m : List (List ℚ)) : List Token :=
  Token.nat m.length :: (m.map encRatList).flatten

/-- Encode a Gaussian conditional. -/
def encGC (g : SGaussianConditional) : List Token :=
  Token.nat g.frontal :: (encNatList g.parents ++ encMat g.matrixRows ++ encRatList g.rhs)

/-- Encode a list of Gaussian conditionals, length-prefixed. -/
def encGCList (l : List SGaussianConditional) : List Token :=
  Token.nat l.length :: (l.map encGC).flatten

/-- Encode one hybrid conditional, tagged by its variant. -/
def encCond : SConditional → List Token
  | .discrete d => Token.nat 0 :: Token.nat d.key :: Token.nat d.cardinality :: encRatList d.table
  | .gaussian g => Token.nat 1 :: encGC g
  | .mixture m => Token.nat 2 :: (encPairList m.discreteParents ++ encGCList m.branches)

/-- Encode a hybrid Bayes net, length-prefixed. -/
def encNet (bn : SHybridBayesNet) : List Token :=
  Token.nat bn.length :: (bn.map encCond).flatten

/-- Read one natural-number token. -/
def readNat : List Token → Option (Nat × List Token)
  | Token.nat n :: rest => some (n, rest)
  | _ => none

/-- Read a counted run of rational tokens. -/
def readRats : Nat → List Token → Option (List ℚ × List Token)
  | 0, ts => some ([], ts)
  | n + 1, Token.rat q :: ts => (readRats n ts).map (fun p => (q :: p.1, p.2))
  | _ + 1, _ => none

/-- Read a counted run of natural-number tokens. -/
def readNats : Nat → List Token → Option (List Nat × List Token)
  | 0, ts => some ([], ts)
  | n + 1, Token.nat k :: ts => (readNats n ts).map (fun p => (k :: p.1, p.2))
  | _ + 1, _ => none

/-- Read a counted run of key/cardinality pairs. -/
def readPairs : Nat → List Token → Option (List (Nat × Nat) × List Token)
  | 0, ts => some ([], ts)
  | n + 1, Token.nat a :: Token.nat b :: ts =>
    (readPairs n ts).map (fun p => ((a, b) :: p.1, p.2))
  | _ + 1, _ => none

/-- Read a counted run of length-prefixed rational rows. -/
def readRows : Nat → List Token → Option (List (List ℚ) × List Token)
  | 0, ts => some ([], ts)
  | n + 1, ts => do
    let (k, ts1) ← readNat ts
    let (row, ts2) ← readRats k ts1
    let (rows, ts3) ← readRows n ts2
    some (row :: rows, ts3)

/-- Read one Gaussian conditional. -/
def readGC (ts : List Token) : Option (SGaussianConditional × List Token) := do
  let (f, ts1) ← readNat ts
  let (np, ts2) ← readNat ts1
  let (ps, ts3) ← readNats np ts2
  let (nr, ts4) ← readNat ts3
  let (rows, ts5) ← readRows nr ts4
  let (nd, ts6) ← readNat ts5
  let (d, ts7) ← readRats nd ts6
  some (⟨f, ps, rows, d⟩, ts7)

/-- Read a counted run of Gaussian conditionals. -/
def readGCs : Nat → List Token → Option (List SGaussianConditional × List Token)
  | 0, ts => some ([], ts)
  | n + 1, ts => do
    let (g, ts1) ← readGC ts
    let (gs, ts2) ← readGCs n ts1
    some (g :: gs, ts2)

/-- Read one hybrid conditional (tag dispatch). -/
def readCond : List Token → Option (SConditional × List Token)
  | Token.nat 0 :: ts => do
    let (k, ts1) ← readNat ts
    let (c, ts2) ← readNat ts1
    let (n, ts3) ← readNat ts2
    let (tab, ts4) ← readRats n ts3
    some (.discrete ⟨k, c, tab⟩, ts4)
  | Token.nat 1 :: ts => (readGC ts).map (fun p => (.gaussian p.1, p.2))
  | Token.nat 2 :: ts => do
    let (np, ts1) ← readNat ts
    let (ps, ts2) ← readPairs np ts1
    let (nb, ts3) ← readNat ts2
    let (bs, ts4) ← readGCs nb ts3
    some (.mixture ⟨ps, bs⟩, ts4)
  | _ => none

/-- Read a counted run of hybrid conditionals. -/
def readConds : Nat → List Token → Option (SHybridBayesNet × List Token)
  | 0, ts => some ([], ts)
  | n + 1, ts => do
    let (c, ts1) ← readCond ts
    let (cs, ts2) ← readConds n ts1
    some (c :: cs, ts2)

/-- Decode a net and require the declared trailer to be exactly what remains. -/
def decNetTrailer (trailer : List Token) (ts : List Token) : Option SHybridBayesNet := do
  let (n, ts1) ← readNat ts
  let (bn, ts2) ← readConds n ts1
  if ts2 = trailer then some bn else none

/-- Modelled from the spec: plain-text archive of a hybrid Bayes net (the
serialization helpers live outside the explored sources): a format header
followed by the encoded net. -/
def serializeObj (bn : SHybridBayesNet) : List Token :=
  Token.nat 10 :: encNet bn

/-- Plain-text deserialization. -/
def deserializeObj : List Token → Option SHybridBayesNet
  | Token.nat 10 :: ts => decNetTrailer [] ts
  | _ => none

/-- Modelled from the spec: XML archive — a distinct opening tag, the encoded
net, and a closing tag. -/
def serializeXML (bn : SHybridBayesNet) : List Token :=
  Token.nat 11 :: (encNet bn ++ [Token.nat 99])

/-- XML deserialization: check both tags. -/
def deserializeXML : List Token → Option SHybridBayesNet
  | Token.nat 11 :: ts => decNetTrailer [Token.nat 99] ts
  | _ => none

/-- Modelled from the spec: binary archive — a distinct header and the byte
count of the payload, then the encoded net. -/
def serializeBinary (bn : SHybridBayesNet) : List Token :=
  Token.nat 12 :: Token.nat (encNet bn).length :: encNet bn

/-- Binary deserialization: check the header and the recorded payload length. -/
def deserializeBinary : List Token → Option SHybridBayesNet
  | Token.nat 12 :: Token.nat len :: ts =>
    if ts.length = len then decNetTrailer [] ts else none
  | _ => none

end Ser

namespace Wit

/-- A concrete plain Gaussian conditional. -/
def gc1 : HBN.GaussianConditional := ⟨7, fun _ => [1]⟩

/-- A concrete mixture branch family: branch selected by the first parent value. -/
def mixBranch : List Nat → HBN.GaussianConditional :=
  fun vs => ⟨5, fun _ => [((vs.headD 0 : Nat) : ℚ)]⟩

/-- A concrete mixture conditional over discrete key 3. -/
def mix1 : HBN.GaussianMixture := ⟨[3], mixBranch⟩

/-- A concrete hybrid Bayes net with one discrete, one Gaussian and one mixture
conditional. -/
def net1 : HBN.HybridBayesNet :=
  [.discrete ⟨2, [1, 1]⟩, .gaussian gc1, .mixture mix1]

/-- A complete assignment for `net1`. -/
def asg1 : HBN.DiscreteValues := [(3, 1)]

/-- A concrete camera (unit depth everywhere, zero reprojection error). -/
def cam1 : Tri.Camera := ⟨fun _ => 0, fun _ => 1, fun _ _ => 0⟩

/-- Concrete triangulation parameters with the optional checks disabled. -/
def params1 : Tri.TriangulationParameters := ⟨1, false, -1, -1⟩

/-- A DLT oracle that is always rank-deficient. -/
def oracleNone : Tri.TriangulationOracle := ⟨fun _ => none, id⟩

/-- A DLT oracle that always produces the point (0,0,1). -/
def oracleSome : Tri.TriangulationOracle := ⟨fun _ => some ⟨0, 0, 1⟩, id⟩

/-- A concrete graph density over discrete assignments in `Nat`: mode at 1,
continuous maximum at the empty vector values. -/
def p1 : Nat → HBN.VectorValues → ℚ :=
  fun d x => (if d = 1 then 1 else 0) + (if x = [] then 0 else -1)

/-- A concrete elimination result for `p1`. -/
def elimRes1 : MAPModel.EliminationResult Nat :=
  ⟨[0, 1], fun d => if d = 1 then 1 else 0, fun _ => []⟩

/-- A second elimination result for `p1`, with the candidates in another order. -/
def elimRes2 : MAPModel.EliminationResult Nat :=
  ⟨[1, 0], fun d => if d = 1 then 1 else 0, fun _ => []⟩

/-- A concrete re-elimination strategy: one clique holding all the factors. -/
def elim1 : List Nat → ISAMModel.Tree Nat := fun fs => [⟨[], fs⟩]

/-- A concrete key function for factors. -/
def keys1 : Nat → List HBN.Key := fun _ => []

/-- A concrete per-factor discrete density. -/
def fd1 : Nat → Nat → ℚ := fun _ _ => 1

/-- A concrete continuous solve. -/
def csolve1 : Nat → HBN.VectorValues := fun _ => []

/-- Concrete leaves for the pruning witness. -/
def leaves1 : List (PruneModel.Leaf Nat) := [(0, 3), (1, 2)]

end Wit

/-! ## Theorems -/

theorem HBN.assignParents_error_shape (a : HBN.DiscreteValues) (ks : List HBN.Key)
    (h : (HBN.assignParents a ks).toOption.isSome = false) :
    ∃ k, HBN.assignParents a ks = .error (.missingAssignment k) := by
  cases hv : HBN.assignParents a ks with
  | error e =>
    cases e with
    | missingAssignment k => exact ⟨k, rfl⟩
  | ok vs => rw [hv] at h; simp [Except.toOption] at h

theorem HBN.optimizeWith_eq (bn : HBN.HybridBayesNet) (a : HBN.DiscreteValues) :
    HBN.optimizeWith bn a = (HBN.choose bn a).map HBN.backSubstitute := by
  induction bn with
  | nil => rfl
  | cons c rest ih =>
    cases c with
    | discrete d => simpa [HBN.optimizeWith, HBN.choose] using ih
    | gaussian g =>
      cases hc : HBN.choose rest a with
      | error e =>
        simp [HBN.optimizeWith, HBN.choose, hc, ih, Except.map]
      | ok tail =>
        simp [HBN.optimizeWith, HBN.choose, hc, ih, Except.map, HBN.backSubstitute]
    | mixture m =>
      cases hv : HBN.assignParents a m.discreteParents with
      | error e =>
        simp [HBN.optimizeWith, HBN.choose, hv, Except.map]
      | ok vals =>
        cases hc : HBN.choose rest a with
        | error e =>
          simp [HBN.optimizeWith, HBN.choose, hv, hc, ih, Except.map]
        | ok tail =>
          simp [HBN.optimizeWith, HBN.choose, hv, hc, ih, Except.map, HBN.backSubstitute]

theorem HBN.choose_characterization (bn : HBN.HybridBayesNet) (a : HBN.DiscreteValues)
    (h : HBN.allAssigned bn a = true) :
    HBN.choose bn a = .ok (bn.filterMap (HBN.chooseConditional a)) := by
  induction bn with
  | nil => rfl
  | cons c rest ih =>
    have hrest : HBN.allAssigned rest a = true := by
      have := h
      simp [HBN.allAssigned, List.all_cons] at this
      simpa [HBN.allAssigned] using this.2
    cases c with
    | discrete d =>
      simpa [HBN.choose, List.filterMap_cons, HBN.chooseConditional] using ih hrest
    | gaussian g =>
      simp [HBN.choose, List.filterMap_cons, HBN.chooseConditional, ih hrest]
    | mixture m =>
      have hm : (HBN.assignParents a m.discreteParents).toOption.isSome = true := by
        have := h
        simp [HBN.allAssigned, List.all_cons] at this
        exact this.1
      cases hv : HBN.assignParents a m.discreteParents with
      | error e => rw [hv] at hm; simp [Except.toOption] at hm
      | ok vals =>
        simp [HBN.choose, List.filterMap_cons, HBN.chooseConditional, hv, ih hrest,
          Except.toOption, Except.map]

theorem HBN.choose_length (bn : HBN.HybridBayesNet) (a : HBN.DiscreteValues)
    (h : HBN.allAssigned bn a = true) :
    (bn.filterMap (HBN.chooseConditional a)).length
      = bn.countP (fun c => !c.isDiscreteCond) := by
  induction bn with
  | nil => rfl
  | cons c rest ih =>
    have hrest : HBN.allAssigned rest a = true := by
      have := h
      simp [HBN.allAssigned, List.all_cons] at this
      simpa [HBN.allAssigned] using this.2
    cases c with
    | discrete d =>
      simpa [List.filterMap_cons, HBN.chooseConditional, List.countP_cons,
        HBN.HybridConditional.isDiscreteCond] using ih hrest
    | gaussian g =>
      simp [List.filterMap_cons, HBN.chooseConditional, List.countP_cons,
        HBN.HybridConditional.isDiscreteCond, ih hrest]
    | mixture m =>
      have hm : (HBN.assignParents a m.discreteParents).toOption.isSome = true := by
        have := h
        simp [HBN.allAssigned, List.all_cons] at this
        exact this.1
      cases hv : HBN.assignParents a m.discreteParents with
      | error e => rw [hv] at hm; simp [Except.toOption] at hm
      | ok vals =>
        simp [List.filterMap_cons, HBN.chooseConditional, List.countP_cons,
          HBN.HybridConditional.isDiscreteCond, hv, ih hrest, Except.toOption, Except.map]

theorem HBN.choose_error_of_missing (bn : HBN.HybridBayesNet) (a : HBN.DiscreteValues)
    (h : HBN.allAssigned bn a = false) :
    ∃ k, HBN.choose bn a = .error (.missingAssignment k) := by
  induction bn with
  | nil => simp [HBN.allAssigned] at h
  | cons c rest ih =>
    cases c with
    | discrete d =>
      have hrest : HBN.allAssigned rest a = false := by
        have := h
        simpa [HBN.allAssigned, List.all_cons] using this
      obtain ⟨k, hk⟩ := ih hrest
      exact ⟨k, by simpa [HBN.choose] using hk⟩
    | gaussian g =>
      have hrest : HBN.allAssigned rest a = false := by
        have := h
        simpa [HBN.allAssigned, List.all_cons] using this
      obtain ⟨k, hk⟩ := ih hrest
      exact ⟨k, by simp [HBN.choose, hk]⟩
    | mixture m =>
      by_cases hm : (HBN.assignParents a m.discreteParents).toOption.isSome = true
      · have hrest : HBN.allAssigned rest a = false := by
          have := h
          simp [HBN.allAssigned, List.all_cons, hm] at this
          simpa [HBN.allAssigned] using this
        obtain ⟨k, hk⟩ := ih hrest
        cases hv : HBN.assignParents a m.discreteParents with
        | error e => rw [hv] at hm; simp [Except.toOption] at hm
        | ok vals => exact ⟨k, by simp [HBN.choose, hv, hk]⟩
      · obtain ⟨k, hk⟩ := HBN.assignParents_error_shape a m.discreteParents
          (by simpa using hm)
        exact ⟨k, by simp [HBN.choose, hk]⟩

/-- C1: the spec states that after sequential elimination with the full hybrid
ordering, `optimize()` returns a continuous solution in which every variable is
offset by exactly -1 from its linearization point within 1e-4 (100 units of
1e-6). Counterexample: the expected solution documented in
`TEST(HybridBayesNet, Optimize)` has X(2) = -0.99029, which is 0.00971 away
from -1, far outside 1e-4. -/
theorem C1_counterexample :
    TestData.allWithinOfMinusOne 100 = false ∧
    TestData.optimizeExpectedContinuous.lookup 2 = some (-990290) ∧
    ¬ (-1000000 - 100 ≤ (-990290 : Int) ∧ (-990290 : Int) ≤ -1000000 + 100) := by
  refine ⟨by decide, by decide, by decide⟩

/-- C1 (amended): after sequential elimination with the full hybrid ordering,
`optimize()` returns the continuous solution documented in the test —
X(1)=-0.999904, X(2)=-0.99029, X(3)=-1.00971, X(4)=-1.0001 — every variable
offset by approximately -1 from its linearization point (within 1e-2, not
within 1e-4), and the discrete assignment M(1)=1, M(2)=0, M(3)=1 documented
there. -/
theorem C1_amended_optimize :
    TestData.allWithinOfMinusOne 10000 = true ∧
    TestData.optimizeExpectedDiscrete = [(1, 1), (2, 0), (3, 1)] := by
  exact ⟨by decide, rfl⟩

/-- C2: for every hybrid Bayes net and complete discrete assignment, `choose`
returns the Gaussian Bayes net in which each mixture conditional is replaced by
the branch selected by the assignment restricted to its discrete parents, each
plain Gaussian conditional passes through, and every discrete conditional is
dropped; the result has one conditional per non-discrete conditional. -/
theorem C2_choose_spec (bn : HBN.HybridBayesNet) (a : HBN.DiscreteValues)
    (h : HBN.allAssigned bn a = true) :
    HBN.choose bn a = .ok (bn.filterMap (HBN.chooseConditional a)) ∧
    (bn.filterMap (HBN.chooseConditional a)).length
      = bn.countP (fun c => !c.isDiscreteCond) :=
  ⟨HBN.choose_characterization bn a h, HBN.choose_length bn a h⟩

/-- C2 witness: a concrete net with one discrete, one Gaussian and one mixture
conditional, and an assignment covering the mixture's discrete parent. -/
theorem C2_choose_spec_witness :
    HBN.allAssigned Wit.net1 Wit.asg1 = true ∧
    HBN.choose Wit.net1 Wit.asg1
      = .ok (Wit.net1.filterMap (HBN.chooseConditional Wit.asg1)) :=
  ⟨by decide, (C2_choose_spec Wit.net1 Wit.asg1 (by decide)).1⟩

/-- C3: for every hybrid Bayes net and discrete assignment,
`optimize(assignment)` equals `choose(assignment)` followed by standard Gaussian
back-substitution — exactly, including agreement of the error on incomplete
assignments. -/
theorem C3_optimize_assignment_eq_choose_backsubstitute
    (bn : HBN.HybridBayesNet) (a : HBN.DiscreteValues) :
    HBN.optimizeWith bn a = (HBN.choose bn a).map HBN.backSubstitute :=
  HBN.optimizeWith_eq bn a

/-- C7: calling `choose` or `optimize(assignment)` with an assignment that
omits a value for some discrete key referenced by a mixture conditional fails
with a missing-assignment error, and no partial result is returned (the result
is the bare error). -/
theorem C7_missing_assignment (bn : HBN.HybridBayesNet) (a : HBN.DiscreteValues)
    (h : HBN.allAssigned bn a = false) :
    (∃ k, HBN.choose bn a = .error (.missingAssignment k)) ∧
    (∃ k, HBN.optimizeWith bn a = .error (.missingAssignment k)) := by
  obtain ⟨k, hk⟩ := HBN.choose_error_of_missing bn a h
  exact ⟨⟨k, hk⟩, ⟨k, by rw [HBN.optimizeWith_eq, hk]; rfl⟩⟩

/-- C7 witness: the concrete net `net1` with the empty assignment (its mixture
references discrete key 3, which is unassigned). -/
theorem C7_missing_assignment_witness :
    ∃ k, HBN.choose Wit.net1 [] = .error (.missingAssignment k) :=
  (C7_missing_assignment Wit.net1 [] (by decide)).1

theorem Tri.safe_of_underconstrained (cheir : Bool) (cameras : List Tri.Camera)
    (measured : List Tri.Point2) (params : Tri.TriangulationParameters)
    (oracle : Tri.TriangulationOracle)
    (h : Tri.triangulatePoint3 cheir cameras params.rankTolerance params.enableEPI oracle
        = .error .underconstrained) :
    Tri.triangulateSafe cheir cameras measured params oracle = .degenerate := by
  by_cases hm : cameras.length < 2
  · simp [Tri.triangulateSafe, hm]
  · simp [Tri.triangulateSafe, hm, h]

theorem Tri.safe_of_cheirality (cheir : Bool) (cameras : List Tri.Camera)
    (measured : List Tri.Point2) (params : Tri.TriangulationParameters)
    (oracle : Tri.TriangulationOracle)
    (h : Tri.triangulatePoint3 cheir cameras params.rankTolerance params.enableEPI oracle
        = .error .cheirality) :
    Tri.triangulateSafe cheir cameras measured params oracle = .behindCamera := by
  by_cases hm : cameras.length < 2
  · exfalso
    rw [Tri.triangulatePoint3, if_pos hm] at h
    exact absurd h (by simp)
  · simp [Tri.triangulateSafe, hm, h]

/-- C8: `triangulateSafe` returns exactly one of the three outcomes (valid
point, degenerate, behind-camera) on every input, and never lets an exception
escape: an underconstrained exception raised during triangulation becomes a
Degenerate result and a cheirality exception becomes a BehindCamera result. -/
theorem C8_triangulateSafe_total (cheir : Bool) (cameras : List Tri.Camera)
    (measured : List Tri.Point2) (params : Tri.TriangulationParameters)
    (oracle : Tri.TriangulationOracle) :
    ((∃ p, Tri.triangulateSafe cheir cameras measured params oracle = .valid p) ∨
      Tri.triangulateSafe cheir cameras measured params oracle = .degenerate ∨
      Tri.triangulateSafe cheir cameras measured params oracle = .behindCamera) ∧
    (Tri.triangulatePoint3 cheir cameras params.rankTolerance params.enableEPI oracle
        = .error .underconstrained →
      Tri.triangulateSafe cheir cameras measured params oracle = .degenerate) ∧
    (Tri.triangulatePoint3 cheir cameras params.rankTolerance params.enableEPI oracle
        = .error .cheirality →
      Tri.triangulateSafe cheir cameras measured params oracle = .behindCamera) := by
  refine ⟨?_, Tri.safe_of_underconstrained cheir cameras measured params oracle,
    Tri.safe_of_cheirality cheir cameras measured params oracle⟩
  cases h : Tri.triangulateSafe cheir cameras measured params oracle with
  | valid p => exact Or.inl ⟨p, rfl⟩
  | degenerate => exact Or.inr (Or.inl rfl)
  | behindCamera => exact Or.inr (Or.inr rfl)

/-- C8 witness: with two cameras and a rank-deficient DLT, the underconstrained
exception is converted to a Degenerate result. -/
theorem C8_triangulateSafe_total_witness :
    Tri.triangulateSafe false [Wit.cam1, Wit.cam1] [] Wit.params1 Wit.oracleNone
      = .degenerate :=
  (C8_triangulateSafe_total false [Wit.cam1, Wit.cam1] [] Wit.params1 Wit.oracleNone).2.1
    (by rfl)

/-- C10: `triangulatePoint3` raises the underconstrained exception exactly when
it is called with fewer than two cameras or the DLT system is rank-deficient at
the given rank tolerance; and `triangulateSafe` with fewer than two cameras
returns Degenerate immediately, for every oracle (the triangulation is never
attempted). -/
theorem C10_underconstrained_iff (cheir : Bool) (cameras : List Tri.Camera)
    (rankTol : ℚ) (opt : Bool) (oracle : Tri.TriangulationOracle) :
    (Tri.triangulatePoint3 cheir cameras rankTol opt oracle = .error .underconstrained
      ↔ (cameras.length < 2 ∨ oracle.dlt rankTol = none)) ∧
    (cameras.length < 2 →
      ∀ (measured : List Tri.Point2) (params : Tri.TriangulationParameters)
        (oracle2 : Tri.TriangulationOracle),
        Tri.triangulateSafe cheir cameras measured params oracle2 = .degenerate) := by
  constructor
  · by_cases hm : cameras.length < 2
    · simp [Tri.triangulatePoint3, hm]
    · cases hd : oracle.dlt rankTol with
      | none => simp [Tri.triangulatePoint3, hm, hd]
      | some p0 =>
        simp only [Tri.triangulatePoint3, if_neg hm, hd]
        constructor
        · intro h
          by_cases hc : (cheir && cameras.any
              (fun c => decide (c.localZ (if opt then oracle.refine p0 else p0) ≤ 0))) = true
          · rw [if_pos hc] at h
            exact absurd h (by simp)
          · rw [if_neg hc] at h
            exact absurd h (by simp)
        · intro h
          rcases h with h | h
          · exact absurd h hm
          · exact absurd h (by simp [hd])
  · intro hm measured params oracle2
    simp [Tri.triangulateSafe, hm]

/-- C10 witness: one camera makes `triangulatePoint3` underconstrained even
with a well-conditioned DLT, while `triangulateSafe` returns Degenerate. -/
theorem C10_underconstrained_iff_witness :
    Tri.triangulatePoint3 false [Wit.cam1] 1 false Wit.oracleSome
      = .error .underconstrained ∧
    Tri.triangulateSafe false [Wit.cam1] [] Wit.params1 Wit.oracleSome = .degenerate :=
  ⟨(C10_underconstrained_iff false [Wit.cam1] 1 false Wit.oracleSome).1.mpr
      (Or.inl (by decide)),
    (C10_underconstrained_iff false [Wit.cam1] 1 false Wit.oracleSome).2
      (by decide) [] Wit.params1 Wit.oracleSome⟩

theorem MAPModel.pickMax_mem {δ : Type} (w : δ → ℚ) (l : List δ) (b : δ)
    (h : MAPModel.pickMax w l = some b) : b ∈ l := by
  induction l with
  | nil => simp [MAPModel.pickMax] at h
  | cons a rest ih =>
    rw [MAPModel.pickMax] at h
    cases hr : MAPModel.pickMax w rest with
    | none =>
      simp only [hr] at h
      have hb : a = b := by simpa using h
      exact hb ▸ List.mem_cons_self a rest
    | some c =>
      simp only [hr] at h
      by_cases hw : w a < w c
      · rw [if_pos hw] at h
        have hb : c = b := by simpa using h
        subst hb
        exact List.mem_cons_of_mem a (ih hr)
      · rw [if_neg hw] at h
        have hb : a = b := by simpa using h
        exact hb ▸ List.mem_cons_self a rest

theorem MAPModel.pickMax_eq_unique {δ : Type} (w : δ → ℚ) (l : List δ) (dstar : δ)
    (hmem : dstar ∈ l) (huniq : ∀ d ∈ l, d ≠ dstar → w d < w dstar) :
    MAPModel.pickMax w l = some dstar := by
  induction l with
  | nil => simp at hmem
  | cons a rest ih =>
    by_cases ha : a = dstar
    · subst ha
      rw [MAPModel.pickMax]
      cases hr : MAPModel.pickMax w rest with
      | none => rfl
      | some c =>
        have hc : c ∈ rest := MAPModel.pickMax_mem w rest c hr
        by_cases hcd : c = a
        · subst hcd
          simp [lt_irrefl]
        · have hlt : w c < w a := huniq c (List.mem_cons_of_mem a hc) hcd
          simp only []
          rw [if_neg (not_lt_of_gt hlt)]
    · have hmem2 : dstar ∈ rest := by
        rcases List.mem_cons.mp hmem with h | h
        · exact absurd h.symm ha
        · exact h
      have ihr := ih hmem2 (fun d hd hne => huniq d (List.mem_cons_of_mem a hd) hne)
      rw [MAPModel.pickMax, ihr]
      simp only []
      rw [if_pos (huniq a (List.mem_cons_self a rest) ha)]

theorem MAPModel.weight_eq_of_valid {δ : Type} (p : δ → HBN.VectorValues → ℚ)
    (E1 E2 : MAPModel.EliminationResult δ)
    (h1 : MAPModel.ValidElimination p E1) (h2 : MAPModel.ValidElimination p E2) (d : δ) :
    E1.weight d = E2.weight d := by
  have hle1 : p d (E1.contSolve d) ≤ p d (E2.contSolve d) := h2.1 d (E1.contSolve d)
  have hle2 : p d (E2.contSolve d) ≤ p d (E1.contSolve d) := h1.1 d (E2.contSolve d)
  rw [h1.2 d, h2.2 d]
  exact le_antisymm hle1 hle2

/-- C4: the MAP discrete-plus-continuous assignment returned by `optimize()` is
a property of the graph, not of the elimination run: any two elimination
results valid for the same graph density — different orderings, sequential
Bayes net or multifrontal Bayes tree — with the same feasible assignments
return the same `optimize()` output, provided the discrete mode is unique and
the continuous maximizer at the mode is unique. -/
theorem C4_optimize_ordering_invariant {δ : Type} (p : δ → HBN.VectorValues → ℚ)
    (E1 E2 : MAPModel.EliminationResult δ)
    (h1 : MAPModel.ValidElimination p E1) (h2 : MAPModel.ValidElimination p E2)
    (hcand : ∀ d, d ∈ E1.candidates ↔ d ∈ E2.candidates)
    (dstar : δ) (hmem : dstar ∈ E1.candidates)
    (huniq : ∀ d ∈ E1.candidates, d ≠ dstar → E1.weight d < E1.weight dstar)
    (hcont : ∀ x, p dstar x = p dstar (E1.contSolve dstar) → x = E1.contSolve dstar) :
    E1.optimize = E2.optimize ∧
    E1.optimize = some (dstar, E1.contSolve dstar) := by
  have hw : ∀ d, E1.weight d = E2.weight d :=
    MAPModel.weight_eq_of_valid p E1 E2 h1 h2
  have hp1 : MAPModel.pickMax E1.weight E1.candidates = some dstar :=
    MAPModel.pickMax_eq_unique E1.weight E1.candidates dstar hmem huniq
  have hp2 : MAPModel.pickMax E2.weight E2.candidates = some dstar := by
    refine MAPModel.pickMax_eq_unique E2.weight E2.candidates dstar
      ((hcand dstar).mp hmem) ?_
    intro d hd hne
    rw [← hw d, ← hw dstar]
    exact huniq d ((hcand d).mpr hd) hne
  have hsolve : E2.contSolve dstar = E1.contSolve dstar := by
    apply hcont
    have hle1 : p dstar (E1.contSolve dstar) ≤ p dstar (E2.contSolve dstar) :=
      h2.1 dstar (E1.contSolve dstar)
    have hle2 : p dstar (E2.contSolve dstar) ≤ p dstar (E1.contSolve dstar) :=
      h1.1 dstar (E2.contSolve dstar)
    exact le_antisymm hle2 hle1
  constructor
  · rw [MAPModel.EliminationResult.optimize, MAPModel.EliminationResult.optimize,
      hp1, hp2]
    simp [hsolve]
  · rw [MAPModel.EliminationResult.optimize, hp1]
    rfl

/-- C4 witness: two concrete elimination results for the same density, with the
candidate assignments listed in different orders, optimize to the same
discrete mode 1 and the same (empty) continuous solution. -/
theorem C4_optimize_ordering_invariant_witness :
    MAPModel.EliminationResult.optimize Wit.elimRes1
      = MAPModel.EliminationResult.optimize Wit.elimRes2 ∧
    MAPModel.EliminationResult.optimize Wit.elimRes1 = some (1, []) := by
  refine C4_optimize_ordering_invariant Wit.p1 Wit.elimRes1 Wit.elimRes2
    ⟨?_, ?_⟩ ⟨?_, ?_⟩ ?_ 1 (by decide) (by decide) ?_
  · intro d x
    by_cases hx : x = []
    · simp [Wit.p1, Wit.elimRes1, hx]
    · simp only [Wit.p1, Wit.elimRes1, hx, if_neg, if_pos]
      simp
  · intro d
    simp [Wit.p1, Wit.elimRes1]
  · intro d x
    by_cases hx : x = []
    · simp [Wit.p1, Wit.elimRes2, hx]
    · simp only [Wit.p1, Wit.elimRes2, hx, if_neg, if_pos]
      simp
  · intro d
    simp [Wit.p1, Wit.elimRes2]
  · intro d
    simp only [Wit.elimRes1, Wit.elimRes2]
    constructor
    · intro h
      rcases List.mem_cons.mp h with h | h
      · exact h ▸ (by simp)
      · rcases List.mem_cons.mp h with h | h
        · exact h ▸ (by simp)
        · simp at h
    · intro h
      rcases List.mem_cons.mp h with h | h
      · exact h ▸ (by simp)
      · rcases List.mem_cons.mp h with h | h
        · exact h ▸ (by simp)
        · simp at h
  · intro x hx
    by_cases h : x = []
    · simpa [Wit.elimRes1] using h
    · exfalso
      simp [Wit.p1, Wit.elimRes1, h] at hx

theorem ISAMModel.allFactors_append {φ : Type} (t1 t2 : ISAMModel.Tree φ) :
    ISAMModel.allFactors (t1 ++ t2)
      = ISAMModel.allFactors t1 ++ ISAMModel.allFactors t2 := by
  simp [ISAMModel.allFactors]

theorem ISAMModel.allFactors_perm {φ : Type} {t1 t2 : ISAMModel.Tree φ}
    (h : t1.Perm t2) :
    (ISAMModel.allFactors t1).Perm (ISAMModel.allFactors t2) :=
  (h.map ISAMModel.Clique.factors).flatten

theorem ISAMModel.allFactors_update_perm {φ : Type}
    (elim : List φ → ISAMModel.Tree φ) (keysOf : φ → List HBN.Key)
    (helim : ∀ fs, (ISAMModel.allFactors (elim fs)).Perm fs)
    (t : ISAMModel.Tree φ) (new : List φ) :
    (ISAMModel.allFactors (ISAMModel.update elim keysOf t new)).Perm
      (ISAMModel.allFactors t ++ new) := by
  unfold ISAMModel.update
  rw [ISAMModel.allFactors_append]
  have h1 := (helim (ISAMModel.allFactors
      (t.filter (ISAMModel.touches ((new.map keysOf).flatten))) ++ new)).append_right
    (ISAMModel.allFactors
      (t.filter (fun c => !ISAMModel.touches ((new.map keysOf).flatten) c)))
  refine h1.trans ?_
  have h2 : (ISAMModel.allFactors
        (t.filter (ISAMModel.touches ((new.map keysOf).flatten))) ++ new) ++
      ISAMModel.allFactors
        (t.filter (fun c => !ISAMModel.touches ((new.map keysOf).flatten) c))
      = ISAMModel.allFactors (t.filter (ISAMModel.touches ((new.map keysOf).flatten))) ++
        (new ++ ISAMModel.allFactors
          (t.filter (fun c => !ISAMModel.touches ((new.map keysOf).flatten) c))) := by
    simp [List.append_assoc]
  rw [h2]
  refine (List.Perm.append_left _ (List.perm_append_comm)).trans ?_
  rw [← List.append_assoc, ← ISAMModel.allFactors_append]
  exact (ISAMModel.allFactors_perm (List.filter_append_perm _ t)).append_right new

theorem ISAMModel.allFactors_updateSeq_perm {φ : Type}
    (elim : List φ → ISAMModel.Tree φ) (keysOf : φ → List HBN.Key)
    (helim : ∀ fs, (ISAMModel.allFactors (elim fs)).Perm fs)
    (batches : List (List φ)) (t : ISAMModel.Tree φ) :
    (ISAMModel.allFactors (batches.foldl (ISAMModel.update elim keysOf) t)).Perm
      (ISAMModel.allFactors t ++ batches.flatten) := by
  induction batches generalizing t with
  | nil => simp
  | cons b bs ih =>
    refine (ih (ISAMModel.update elim keysOf t b)).trans ?_
    refine ((ISAMModel.allFactors_update_perm elim keysOf helim t b).append_right
      bs.flatten).trans ?_
    simp [List.append_assoc]

theorem ISAMModel.graphWeight_perm {φ δ : Type} (fd : φ → δ → ℚ)
    {fs1 fs2 : List φ} (h : fs1.Perm fs2) :
    ISAMModel.graphWeight fd fs1 = ISAMModel.graphWeight fd fs2 := by
  funext d
  exact (h.map (fun f => fd f d)).prod_eq

/-- C5: applying the incremental `update` sequentially over batches B1..Bn,
starting from the empty tree, produces a tree whose `optimize()` result equals
that of eliminating the union B1∪...∪Bn at once (exactly, in this exact-
arithmetic model), for any re-elimination strategy that preserves the factor
content of what it eliminates. -/
theorem C5_incremental_equivalence {φ δ : Type} (elim : List φ → ISAMModel.Tree φ)
    (keysOf : φ → List HBN.Key)
    (helim : ∀ fs, (ISAMModel.allFactors (elim fs)).Perm fs)
    (fd : φ → δ → ℚ) (csolve : δ → HBN.VectorValues) (cands : List δ)
    (batches : List (List φ)) :
    ISAMModel.treeOptimize fd csolve cands (ISAMModel.updateSeq elim keysOf batches)
      = ISAMModel.treeOptimize fd csolve cands
          (ISAMModel.batchTree keysOf batches.flatten) := by
  have hperm : (ISAMModel.allFactors
      (ISAMModel.updateSeq elim keysOf batches)).Perm batches.flatten := by
    have h := ISAMModel.allFactors_updateSeq_perm elim keysOf helim batches []
    simpa [ISAMModel.allFactors, ISAMModel.updateSeq] using h
  have hbatch : ISAMModel.allFactors (ISAMModel.batchTree keysOf batches.flatten)
      = batches.flatten := by
    simp [ISAMModel.allFactors, ISAMModel.batchTree]
  unfold ISAMModel.treeOptimize
  rw [hbatch, ISAMModel.graphWeight_perm fd hperm]

/-- C5 witness: two concrete batches pushed through `update` optimize exactly
like the one-shot elimination of their union. -/
theorem C5_incremental_equivalence_witness :
    ISAMModel.treeOptimize Wit.fd1 Wit.csolve1 [0]
        (ISAMModel.updateSeq Wit.elim1 Wit.keys1 [[1], [2]])
      = ISAMModel.treeOptimize Wit.fd1 Wit.csolve1 [0]
          (ISAMModel.batchTree Wit.keys1 [1, 2]) :=
  C5_incremental_equivalence Wit.elim1 Wit.keys1
    (fun fs => by simp [ISAMModel.allFactors, Wit.elim1])
    Wit.fd1 Wit.csolve1 [0] [[1], [2]]

theorem PruneModel.leafInsert_perm {δ : Type} (x : PruneModel.Leaf δ)
    (l : List (PruneModel.Leaf δ)) :
    (PruneModel.leafInsert x l).Perm (x :: l) := by
  induction l with
  | nil => exact List.Perm.refl _
  | cons y ys ih =>
    rw [PruneModel.leafInsert]
    by_cases h : x.2 ≤ y.2
    · rw [if_pos h]
      exact (ih.cons y).trans (List.Perm.swap x y ys)
    · rw [if_neg h]

theorem PruneModel.sortLeaves_perm {δ : Type} (l : List (PruneModel.Leaf δ)) :
    (PruneModel.sortLeaves l).Perm l := by
  induction l with
  | nil => exact List.Perm.refl _
  | cons x xs ih =>
    rw [PruneModel.sortLeaves]
    exact (PruneModel.leafInsert_perm x (PruneModel.sortLeaves xs)).trans (ih.cons x)

theorem PruneModel.leafInsert_sorted {δ : Type} (x : PruneModel.Leaf δ)
    (l : List (PruneModel.Leaf δ))
    (h : l.Pairwise (fun a b => b.2 ≤ a.2)) :
    (PruneModel.leafInsert x l).Pairwise (fun a b => b.2 ≤ a.2) := by
  induction l with
  | nil => simp [PruneModel.leafInsert]
  | cons y ys ih =>
    rcases List.pairwise_cons.mp h with ⟨hy, hys⟩
    rw [PruneModel.leafInsert]
    by_cases hxy : x.2 ≤ y.2
    · rw [if_pos hxy]
      refine List.pairwise_cons.mpr ⟨?_, ih hys⟩
      intro z hz
      have hz2 := (PruneModel.leafInsert_perm x ys).mem_iff.mp hz
      rcases List.mem_cons.mp hz2 with h1 | h1
      · exact h1 ▸ hxy
      · exact hy z h1
    · rw [if_neg hxy]
      have hyx : y.2 ≤ x.2 := le_of_not_le hxy
      refine List.pairwise_cons.mpr ⟨?_, h⟩
      intro z hz
      rcases List.mem_cons.mp hz with h1 | h1
      · exact h1 ▸ hyx
      · exact le_trans (hy z h1) hyx

theorem PruneModel.sortLeaves_sorted {δ : Type} (l : List (PruneModel.Leaf δ)) :
    (PruneModel.sortLeaves l).Pairwise (fun a b => b.2 ≤ a.2) := by
  induction l with
  | nil => simp [PruneModel.sortLeaves]
  | cons x xs ih =>
    exact PruneModel.leafInsert_sorted x (PruneModel.sortLeaves xs) ih

/-- C6: `prune(tree, maxLeaves)` never increases the number of retained leaf
hypotheses (the retained count is at most `min maxLeaves n`), never introduces
a hypothesis not already present, keeps the retained leaves with their original
weights in non-increasing weight order (no reordering), partitions the original
leaves exactly into retained plus discarded, never retains a leaf of lower
weight than a discarded one within the same call, and a second prune with
`k2 ≤ k1` never increases the number of retained leaves. -/
theorem C6_prune_guarantees {δ : Type} (leaves : List (PruneModel.Leaf δ))
    (k1 k2 : Nat) (_hk : k2 ≤ k1) :
    (PruneModel.prune leaves k1).length ≤ min k1 leaves.length ∧
    (∀ x ∈ PruneModel.prune leaves k1, x ∈ leaves) ∧
    (PruneModel.prune leaves k1).Pairwise (fun a b => b.2 ≤ a.2) ∧
    (PruneModel.prune leaves k1 ++ PruneModel.pruneDiscarded leaves k1).Perm leaves ∧
    (∀ a ∈ PruneModel.prune leaves k1,
      ∀ b ∈ PruneModel.pruneDiscarded leaves k1, b.2 ≤ a.2) ∧
    (PruneModel.prune (PruneModel.prune leaves k1) k2).length
      ≤ (PruneModel.prune leaves k1).length := by
  have hperm := PruneModel.sortLeaves_perm leaves
  have hsorted := PruneModel.sortLeaves_sorted leaves
  have hsplit : PruneModel.prune leaves k1 ++ PruneModel.pruneDiscarded leaves k1
      = PruneModel.sortLeaves leaves := by
    simp [PruneModel.prune, PruneModel.pruneDiscarded]
  have hpairs := List.pairwise_append.mp (hsplit.symm ▸ hsorted)
  refine ⟨?_, ?_, ?_, ?_, hpairs.2.2, ?_⟩
  · rw [PruneModel.prune, List.length_take, hperm.length_eq]
  · intro x hx
    exact hperm.mem_iff.mp (List.mem_of_mem_take hx)
  · exact hpairs.1
  · exact hsplit ▸ hperm
  · rw [PruneModel.prune, List.length_take,
      (PruneModel.sortLeaves_perm (PruneModel.prune leaves k1)).length_eq]
    exact min_le_right _ _

/-- C6 witness: pruning two concrete weighted leaves down to one, twice. -/
theorem C6_prune_guarantees_witness :
    (PruneModel.prune Wit.leaves1 1).length ≤ min 1 Wit.leaves1.length ∧
    (PruneModel.prune (PruneModel.prune Wit.leaves1 1) 1).length
      ≤ (PruneModel.prune Wit.leaves1 1).length :=
  ⟨(C6_prune_guarantees Wit.leaves1 1 1 (le_refl 1)).1,
    (C6_prune_guarantees Wit.leaves1 1 1 (le_refl 1)).2.2.2.2.2⟩

theorem Ser.readRats_enc (l : List ℚ) (rest : List Ser.Token) :
    Ser.readRats l.length (l.map Ser.Token.rat ++ rest) = some (l, rest) := by
  induction l with
  | nil => rfl
  | cons q qs ih => simp [Ser.readRats, ih]

theorem Ser.readNats_enc (l : List Nat) (rest : List Ser.Token) :
    Ser.readNats l.length (l.map Ser.Token.nat ++ rest) = some (l, rest) := by
  induction l with
  | nil => rfl
  | cons k ks ih => simp [Ser.readNats, ih]

theorem Ser.readPairs_enc (l : List (Nat × Nat)) (rest : List Ser.Token) :
    Ser.readPairs l.length
      ((l.map (fun p => [Ser.Token.nat p.1, Ser.Token.nat p.2])).flatten ++ rest)
      = some (l, rest) := by
  induction l with
  | nil => rfl
  | cons p ps ih => simp [Ser.readPairs, ih]

theorem Ser.readRows_enc (m : List (List ℚ)) (rest : List Ser.Token) :
    Ser.readRows m.length ((m.map Ser.encRatList).flatten ++ rest) = some (m, rest) := by
  induction m with
  | nil => rfl
  | cons r rs ih =>
    simp [Ser.readRows, Ser.encRatList, Ser.readNat, List.append_assoc,
      Ser.readRats_enc, ih]

theorem Ser.readGC_enc (g : Ser.SGaussianConditional) (rest : List Ser.Token) :
    Ser.readGC (Ser.encGC g ++ rest) = some (g, rest) := by
  simp [Ser.readGC, Ser.encGC, Ser.encNatList, Ser.encMat, Ser.encRatList,
    Ser.readNat, List.append_assoc, Ser.readNats_enc, Ser.readRows_enc,
    Ser.readRats_enc]

theorem Ser.readGCs_enc (l : List Ser.SGaussianConditional) (rest : List Ser.Token) :
    Ser.readGCs l.length ((l.map Ser.encGC).flatten ++ rest) = some (l, rest) := by
  induction l with
  | nil => rfl
  | cons g gs ih => simp [Ser.readGCs, List.append_assoc, Ser.readGC_enc, ih]

theorem Ser.readCond_enc (c : Ser.SConditional) (rest : List Ser.Token) :
    Ser.readCond (Ser.encCond c ++ rest) = some (c, rest) := by
  cases c with
  | discrete d =>
    simp [Ser.readCond, Ser.encCond, Ser.encRatList, Ser.readNat, Ser.readRats_enc]
  | gaussian g =>
    simp [Ser.readCond, Ser.encCond, Ser.readGC_enc]
  | mixture m =>
    simp [Ser.readCond, Ser.encCond, Ser.encPairList, Ser.encGCList, Ser.readNat,
      List.append_assoc, Ser.readPairs_enc, Ser.readGCs_enc]

theorem Ser.readConds_enc (bn : Ser.SHybridBayesNet) (rest : List Ser.Token) :
    Ser.readConds bn.length ((bn.map Ser.encCond).flatten ++ rest) = some (bn, rest) := by
  induction bn with
  | nil => rfl
  | cons c cs ih => simp [Ser.readConds, List.append_assoc, Ser.readCond_enc, ih]

theorem Ser.decNetTrailer_enc (bn : Ser.SHybridBayesNet) (trailer : List Ser.Token) :
    Ser.decNetTrailer trailer (Ser.encNet bn ++ trailer) = some bn := by
  simp [Ser.decNetTrailer, Ser.encNet, Ser.readNat, Ser.readConds_enc]

/-- C9: serializing a hybrid Bayes net in any of the three formats — plain,
XML-tagged, or binary with a recorded payload length — and deserializing yields
an object exactly structurally equal to the original (propositional equality of
the whole conditional list, not merely equality of optimized values). -/
theorem C9_serialization_roundtrip (bn : Ser.SHybridBayesNet) :
    Ser.deserializeObj (Ser.serializeObj bn) = some bn ∧
    Ser.deserializeXML (Ser.serializeXML bn) = some bn ∧
    Ser.deserializeBinary (Ser.serializeBinary bn) = some bn := by
  refine ⟨?_, ?_, ?_⟩
  · show Ser.decNetTrailer [] (Ser.encNet bn) = some bn
    simpa using Ser.decNetTrailer_enc bn []
  · exact Ser.decNetTrailer_enc bn [Ser.Token.nat 99]
  · show (if (Ser.encNet bn).length = (Ser.encNet bn).length then
        Ser.decNetTrailer [] (Ser.encNet bn) else none) = some bn
    rw [if_pos rfl]
    simpa using Ser.decNetTrailer_enc bn []
